import Mathlib

/-!
Verification of the physfslt-3.0.2 virtual filesystem against its
natural-language specification.

The definitions below are shallow embeddings of the functions in
src/physfs.c and src/physfs_archiver_dir.c.  C strings are modelled as
lists of characters (a C string is exactly a NUL-free character
sequence); machine byte buffers are lists of naturals; the per-thread
error slot is modelled by returning the error code that a failing
function sets.  The platform layer (physfs_platform_posix.c) is not part
of the source tree, so its byte-level primitives are modelled from the
specification where needed; each such definition is marked in its doc
comment.
-/

/-- Error codes of the library (subset used by the verified operations),
from the PHYSFS_ErrorCode enumeration. -/
inductive ErrC where
  | BAD_FILENAME
  | UNSUPPORTED
  | NOT_FOUND
  | FILES_STILL_OPEN
  | NOT_MOUNTED
  | SYMLINK_FORBIDDEN
  | OTHER_ERROR
  deriving DecidableEq, Repr

/-- Skip over '/' characters, as the leading-slash stripping loop of
sanitizePlatformIndependentPath does (physfs.c, while over the source
pointer). -/
def dropSlashes : List Char → List Char
  | [] => []
  | c :: rest => if c = '/' then dropSlashes rest else c :: rest

/-- Body of the do / while loop of sanitizePlatformIndependentPath
(physfs.c).  out holds the characters already deposited in dst up to the
start of the current segment (the C prev pointer), seg holds the
characters of the current segment.  pend records that a '/' separator
was met but not yet deposited: C implements this with an inner while
loop chopping duplicate slashes and a break when the string ends there
(so no trailing separator is deposited); a fresh non-separator character
ends the pending state, depositing the '/' and opening a new segment.
The empty-source case corresponds to ch equal to the terminator: the C
loop writes it and exits without any check of the final segment. -/
def sanLoop : List Char → List Char → List Char → Bool → Option (List Char)
  | [], out, seg, _ => some (out ++ seg)
  | c :: src, out, seg, pend =>
    if pend then
      if c = '/' then sanLoop src out seg true
      else if c = ':' ∨ c = '\\' then none
      else sanLoop src (out ++ ['/']) [c] false
    else
      if c = ':' ∨ c = '\\' then none
      else if c = '/' then
        if seg = ['.'] ∨ seg = ['.', '.'] then none
        else sanLoop src (out ++ seg) [] true
      else sanLoop src out (seg ++ [c]) false

/-- sanitizePlatformIndependentPath (physfs.c): strip leading '/', reject
a whole-string "." or "..", then run the cleaning loop.  Returns the
sanitized string, or none for a failure with error BAD_FILENAME. -/
def sanitize (src : List Char) : Option (List Char) :=
  let src := dropSlashes src
  if src = ['.'] ∨ src = ['.', '.'] then none
  else sanLoop src [] [] false

/-- C1 (code bug evidence): sanitizePlatformIndependentPath accepts the
path "a/.." unchanged.  The claim (and the code's own comment that "."
and ".." are illegal pathnames) requires rejection with BAD_FILENAME,
but the loop only validates a segment when it meets a '/' separator, so
the final segment of the input is never checked. -/
theorem sanitize_accepts_final_dotdot :
    sanitize ['a', '/', '.', '.'] = some ['a', '/', '.', '.'] := by
  decide

/-- Modelled from the spec: byte-level backing store behind a native
PHYSFS_Io (the platform file primitives of physfs_platform_posix.c are
not part of src/).  data are the bytes of the file, pos the cursor, and
cap the remaining write capacity of the device: the spec's platform
write primitive may complete only part of a request (e.g. a full
device), which the model expresses by capping the number of bytes a
write can accept; cap none means no limit. -/
structure ByteStream where
  data : List Nat
  pos : Nat
  cap : Option Nat
  deriving DecidableEq, Repr

/-- Deposit bs into data at offset pos, zero-padding any gap, as a POSIX
positional write does.  Writing nothing leaves the store untouched. -/
def writeAt (data : List Nat) (pos : Nat) (bs : List Nat) : List Nat :=
  if bs.isEmpty then data
  else data.take pos ++ List.replicate (pos - data.length) 0 ++ bs ++ data.drop (pos + bs.length)

/-- Modelled from the spec: io->read returns the bytes obtained and the
advanced stream; the count can be short at end of file and is 0 exactly
at end of file. -/
def ByteStream.read (io : ByteStream) (n : Nat) : List Nat × ByteStream :=
  let bs := (io.data.drop io.pos).take n
  (bs, { io with pos := io.pos + bs.length })

/-- Modelled from the spec: io->write returns the count of bytes
actually written (possibly short, never negative in the model: platform
errors surface as a count of 0) and the advanced stream. -/
def ByteStream.write (io : ByteStream) (bs : List Nat) : Nat × ByteStream :=
  let k := match io.cap with
    | none => bs.length
    | some c => min bs.length c
  (k, { io with data := writeAt io.data io.pos (bs.take k), pos := io.pos + k,
                cap := io.cap.map (fun c => c - k) })

/-- Modelled from the spec: io->seek moves to an absolute byte offset
from the start and succeeds for any offset (lseek semantics). -/
def ByteStream.seek (io : ByteStream) (p : Nat) : ByteStream :=
  { io with pos := p }

/-- FileHandle (physfs.c): the underlying Io, the read/write direction
flag, and the optional user buffer with bufsize / buffill / bufpos.  The
C buffer is a heap array of bufsize bytes of which only the prefix
[0, buffill) is meaningful; the model's buffer list holds that
meaningful prefix (possibly longer; bytes past buffill are never read).
The C buffer pointer is non-NULL exactly when bufsize is non-zero
(PHYSFS_setBuffer), so a bufsize of 0 models an unbuffered handle. -/
structure FileHandle where
  io : ByteStream
  forReading : Bool
  buffer : List Nat
  bufsize : Nat
  buffill : Nat
  bufpos : Nat
  deriving DecidableEq, Repr

/-- PHYSFS_tell (physfs.c): io.tell() - buffill + bufpos for read
handles, io.tell() + buffill for write handles. -/
def PHYSFS_tell (fh : FileHandle) : Int :=
  if fh.forReading then ((fh.io.pos : Int) - fh.buffill) + fh.bufpos
  else (fh.io.pos : Int) + fh.buffill

/-- PHYSFS_flush (physfs.c): a no-op success for read handles and empty
buffers; otherwise writes buffer[bufpos..buffill] to the Io and checks
the C condition rc <= 0 (in the model: a written count of 0) for
failure, leaving the handle untouched on failure and zeroing bufpos and
buffill on success. -/
def PHYSFS_flush (fh : FileHandle) : Option FileHandle :=
  if fh.forReading = true ∨ fh.bufpos = fh.buffill then some fh
  else
    let r := fh.io.write ((fh.buffer.drop fh.bufpos).take (fh.buffill - fh.bufpos))
    if r.fst = 0 then none
    else some { fh with io := r.snd, bufpos := 0, buffill := 0 }

/-- Loop of doBufferedRead (physfs.c).  len counts the bytes still
wanted, ret the bytes already delivered (the C retval), acc the bytes
copied to the destination so far.  While data is available in the
buffer, copy min(len, avail) bytes from buffer+bufpos; on an empty
buffer refill it with io->read(buffer, bufsize), terminating when the
refill returns no data (the C code then reports ret, or the refill's
non-positive status when nothing was delivered; the model's read status
is never negative, so both coincide). -/
def dbrGo (fh : FileHandle) (len ret : Nat) (acc : List Nat) : Int × List Nat × FileHandle :=
  if h0 : len = 0 then ((ret : Int), acc, fh)
  else
    if h1 : 0 < fh.buffill - fh.bufpos then
      let cpy := min len (fh.buffill - fh.bufpos)
      dbrGo { fh with bufpos := fh.bufpos + cpy } (len - cpy) (ret + cpy)
        (acc ++ (fh.buffer.drop fh.bufpos).take cpy)
    else
      let r := fh.io.read fh.bufsize
      if h2 : 0 < r.fst.length then
        dbrGo { fh with io := r.snd, bufpos := 0, buffill := r.fst.length, buffer := r.fst }
          len ret acc
      else ((ret : Int), acc, { fh with io := r.snd, bufpos := 0, buffill := 0 })
termination_by (len, if fh.buffill - fh.bufpos = 0 then 1 else 0)
decreasing_by
  · apply Prod.Lex.left
    omega
  · apply Prod.Lex.right
    unfold r at h2
    have ha : fh.buffill - fh.bufpos = 0 := by omega
    have hb : ¬((fh.io.read fh.bufsize).1.length - 0 = 0) := by omega
    simp [ha, hb]
    exact fun hnil => by simp [hnil] at h2

/-- doBufferedRead (physfs.c): run the loop with nothing read yet. -/
def doBufferedRead (fh : FileHandle) (len : Nat) : Int × List Nat × FileHandle :=
  dbrGo fh len 0 []

/-- doBufferedWrite (physfs.c): if the bytes fit strictly inside the
remaining buffer capacity, append them to the buffer; otherwise flush
(failing hard, with -1, if the flush fails) and write the new bytes
directly through the Io. -/
def doBufferedWrite (fh : FileHandle) (bs : List Nat) : Int × FileHandle :=
  if fh.buffill + bs.length < fh.bufsize then
    ((bs.length : Int),
      { fh with buffer := fh.buffer.take fh.buffill ++ bs, buffill := fh.buffill + bs.length })
  else
    match PHYSFS_flush fh with
    | none => (-1, fh)
    | some fh1 =>
      let r := fh1.io.write bs
      ((r.fst : Int), { fh1 with io := r.snd })

/-- PHYSFS_seek (physfs.c): flush first; for a buffered read handle a
position within the already-buffered range only adjusts bufpos (the C
forward test offset <= buffill - bufpos and backward test
-offset <= bufpos), otherwise the buffer is discarded and the Io is
raw-seeked. -/
def PHYSFS_seek (fh : FileHandle) (pos : Nat) : Option FileHandle :=
  match PHYSFS_flush fh with
  | none => none
  | some fh1 =>
    if fh1.bufsize ≠ 0 ∧ fh1.forReading = true then
      let offset : Int := (pos : Int) - PHYSFS_tell fh1
      if (0 ≤ offset ∧ offset ≤ (fh1.buffill - fh1.bufpos : Nat)) ∨
         (offset < 0 ∧ -offset ≤ (fh1.bufpos : Int)) then
        some { fh1 with bufpos := ((fh1.bufpos : Int) + offset).toNat }
      else
        some { fh1 with buffill := 0, bufpos := 0, io := fh1.io.seek pos }
    else
      some { fh1 with buffill := 0, bufpos := 0, io := fh1.io.seek pos }

/-- Well-formedness of a file handle, as maintained by the C code: the
buffer cursor never passes the fill level, the fill level never exceeds
the meaningful buffer contents, and write handles never use bufpos. -/
def WF (fh : FileHandle) : Prop :=
  fh.bufpos ≤ fh.buffill ∧ fh.buffill ≤ fh.buffer.length ∧
    (fh.forReading = false → fh.bufpos = 0)

instance (fh : FileHandle) : Decidable (WF fh) :=
  decidable_of_iff
    (fh.bufpos ≤ fh.buffill ∧ fh.buffill ≤ fh.buffer.length ∧
      (fh.forReading = false → fh.bufpos = 0)) Iff.rfl

/-- Flushing a well-formed handle on a fully-compliant stream (one that
never cuts a write short) succeeds, keeps the logical position, and
preserves well-formedness together with the handle attributes that do
not concern the buffer. -/
theorem write_none_fst (io : ByteStream) (bs : List Nat) (h : io.cap = none) :
    (io.write bs).fst = bs.length := by
  simp [ByteStream.write, h]

theorem write_none_pos (io : ByteStream) (bs : List Nat) (h : io.cap = none) :
    (io.write bs).snd.pos = io.pos + bs.length := by
  simp [ByteStream.write, h]

theorem write_none_cap (io : ByteStream) (bs : List Nat) (h : io.cap = none) :
    (io.write bs).snd.cap = none := by
  simp [ByteStream.write, h]

theorem flush_spec (fh : FileHandle) (hwf : WF fh) (hcap : fh.io.cap = none) :
    ∃ fh1, PHYSFS_flush fh = some fh1 ∧ PHYSFS_tell fh1 = PHYSFS_tell fh ∧ WF fh1 ∧
      fh1.forReading = fh.forReading ∧ fh1.bufsize = fh.bufsize ∧ fh1.io.cap = none ∧
      (fh.forReading = false → fh1.buffill = 0 ∧ fh1.bufpos = 0) := by
  obtain ⟨hbp, hbl, hwr⟩ := hwf
  by_cases hr : fh.forReading = true
  · refine ⟨fh, by simp [PHYSFS_flush, hr], rfl, ⟨hbp, hbl, hwr⟩, rfl, rfl, hcap, ?_⟩
    intro hfalse
    rw [hr] at hfalse
    exact absurd hfalse (by simp)
  · have hr' : fh.forReading = false := by
      cases h : fh.forReading
      · rfl
      · exact absurd h hr
    have hbp0 : fh.bufpos = 0 := hwr hr'
    by_cases hempty : fh.bufpos = fh.buffill
    · exact ⟨fh, by simp [PHYSFS_flush, hempty], rfl, ⟨hbp, hbl, hwr⟩, rfl, rfl, hcap,
        fun _ => ⟨by omega, hbp0⟩⟩
    · have hfl : 0 < fh.buffill := by omega
      have hlen : ((fh.buffer.drop fh.bufpos).take (fh.buffill - fh.bufpos)).length
          = fh.buffill := by
        simp [List.length_take, List.length_drop]
        omega
      have hfst := write_none_fst fh.io
        ((fh.buffer.drop fh.bufpos).take (fh.buffill - fh.bufpos)) hcap
      have hpos := write_none_pos fh.io
        ((fh.buffer.drop fh.bufpos).take (fh.buffill - fh.bufpos)) hcap
      have hc := write_none_cap fh.io
        ((fh.buffer.drop fh.bufpos).take (fh.buffill - fh.bufpos)) hcap
      have hkey : PHYSFS_flush fh =
          some { fh with
            io := (fh.io.write ((fh.buffer.drop fh.bufpos).take (fh.buffill - fh.bufpos))).snd,
            bufpos := 0, buffill := 0 } := by
        rw [PHYSFS_flush, if_neg (by simp [hr', hempty])]
        rw [if_neg (by rw [hfst, hlen]; omega)]
      refine ⟨_, hkey, ?_, ⟨by simp, by simp, fun _ => rfl⟩, rfl, rfl, hc, fun _ => ⟨rfl, rfl⟩⟩
      simp only [PHYSFS_tell, hr']
      simp [hpos, hlen]

/-- Conclusion of claim C2 for reads: a buffered read moves the logical
position forward by exactly the reported count and keeps the handle
well-formed. -/
def C2Read (fh : FileHandle) (len : Nat) : Prop :=
  fh.forReading = true →
    PHYSFS_tell (doBufferedRead fh len).2.2 = PHYSFS_tell fh + (doBufferedRead fh len).1 ∧
    WF (doBufferedRead fh len).2.2

/-- Conclusion of claim C2 for writes: a buffered write on a
fully-compliant stream reports the full count and moves the logical
position forward by it. -/
def C2Write (fh : FileHandle) (bs : List Nat) : Prop :=
  fh.forReading = false →
    (doBufferedWrite fh bs).1 = (bs.length : Int) ∧
    PHYSFS_tell (doBufferedWrite fh bs).2 = PHYSFS_tell fh + bs.length ∧
    WF (doBufferedWrite fh bs).2

/-- Conclusion of claim C2 for seeks: a successful seek leaves the
logical position at the requested offset. -/
def C2Seek (fh : FileHandle) (pos : Nat) : Prop :=
  ∀ fh1, PHYSFS_seek fh pos = some fh1 → PHYSFS_tell fh1 = (pos : Int) ∧ WF fh1

/-- Conclusion of claim C2 for flushes: a successful flush does not move
the logical position. -/
def C2Flush (fh : FileHandle) : Prop :=
  ∀ fh1, PHYSFS_flush fh = some fh1 → PHYSFS_tell fh1 = PHYSFS_tell fh ∧ WF fh1

/-- The literal tell formulas of claim C2, exactly as PHYSFS_tell
computes them. -/
def C2Formula (fh : FileHandle) : Prop :=
  (fh.forReading = true → PHYSFS_tell fh = ((fh.io.pos : Int) - fh.buffill) + fh.bufpos) ∧
  (fh.forReading = false → PHYSFS_tell fh = (fh.io.pos : Int) + fh.buffill)

theorem read_pos (io : ByteStream) (n : Nat) :
    (io.read n).snd.pos = io.pos + (io.read n).fst.length := by
  simp [ByteStream.read]

/-- Unfolding equations of the read loop. -/
theorem dbrGo_zero (fh : FileHandle) (ret : Nat) (acc : List Nat) :
    dbrGo fh 0 ret acc = ((ret : Int), acc, fh) := by
  rw [dbrGo]
  simp

theorem dbrGo_copy (fh : FileHandle) (len ret : Nat) (acc : List Nat)
    (h0 : ¬len = 0) (h1 : 0 < fh.buffill - fh.bufpos) :
    dbrGo fh len ret acc =
      dbrGo { fh with bufpos := fh.bufpos + min len (fh.buffill - fh.bufpos) }
        (len - min len (fh.buffill - fh.bufpos)) (ret + min len (fh.buffill - fh.bufpos))
        (acc ++ (fh.buffer.drop fh.bufpos).take (min len (fh.buffill - fh.bufpos))) := by
  rw [dbrGo]
  simp [h0, h1]

theorem dbrGo_refill (fh : FileHandle) (len ret : Nat) (acc : List Nat)
    (h0 : ¬len = 0) (h1 : ¬0 < fh.buffill - fh.bufpos)
    (h2 : 0 < (fh.io.read fh.bufsize).fst.length) :
    dbrGo fh len ret acc =
      dbrGo
        { fh with io := (fh.io.read fh.bufsize).snd, bufpos := 0,
                  buffill := (fh.io.read fh.bufsize).fst.length,
                  buffer := (fh.io.read fh.bufsize).fst }
        len ret acc := by
  rw [dbrGo]
  simp [h0, h1, h2]

theorem dbrGo_stop (fh : FileHandle) (len ret : Nat) (acc : List Nat)
    (h0 : ¬len = 0) (h1 : ¬0 < fh.buffill - fh.bufpos)
    (h2 : ¬0 < (fh.io.read fh.bufsize).fst.length) :
    dbrGo fh len ret acc =
      ((ret : Int), acc,
        { fh with io := (fh.io.read fh.bufsize).snd, bufpos := 0, buffill := 0 }) := by
  rw [dbrGo]
  simp [h0, h1, h2]

/-- The read loop moves the logical position forward by exactly the
count of bytes it adds to the C retval, and keeps the handle
well-formed. -/
theorem dbrGo_tell (fh : FileHandle) (len ret : Nat) (acc : List Nat) :
    fh.forReading = true → fh.bufpos ≤ fh.buffill → fh.buffill ≤ fh.buffer.length →
    PHYSFS_tell (dbrGo fh len ret acc).2.2
        = PHYSFS_tell fh + ((dbrGo fh len ret acc).1 - ret) ∧
      WF (dbrGo fh len ret acc).2.2 := by
  induction fh, len, ret, acc using dbrGo.induct with
  | case1 fh ret acc =>
    intro hr hbp hbl
    rw [dbrGo_zero]
    constructor
    · show PHYSFS_tell fh = PHYSFS_tell fh + ((ret : Int) - ret)
      omega
    · exact ⟨hbp, hbl, fun hf => by rw [hr] at hf; cases hf⟩
  | case2 fh len ret acc h0 h1 cpy ih =>
    intro hr hbp hbl
    rw [dbrGo_copy fh len ret acc h0 h1]
    have hbp2 : fh.bufpos + min len (fh.buffill - fh.bufpos) ≤ fh.buffill := by omega
    obtain ⟨iht, ihw⟩ := ih hr hbp2 hbl
    refine ⟨?_, ihw⟩
    rw [iht]
    simp only [PHYSFS_tell, hr, if_pos rfl]
    push_cast
    ring
  | case3 fh len ret acc h0 h1 r h2 ih =>
    intro hr hbp hbl
    have hre : r = fh.io.read fh.bufsize := rfl
    rw [hre] at h2 ih
    rw [dbrGo_refill fh len ret acc h0 h1 h2]
    obtain ⟨iht, ihw⟩ := ih hr (by simp) (by simp)
    refine ⟨?_, ihw⟩
    rw [iht]
    have hbe : fh.bufpos = fh.buffill := by omega
    simp only [PHYSFS_tell, hr, if_pos rfl]
    push_cast [hbe]
    rw [read_pos]
    push_cast
    omega
  | case4 fh len ret acc h0 h1 r h2 =>
    intro hr hbp hbl
    have hre : r = fh.io.read fh.bufsize := rfl
    rw [hre] at h2
    rw [dbrGo_stop fh len ret acc h0 h1 h2]
    have hbe : fh.bufpos = fh.buffill := by omega
    constructor
    · have hrl : (fh.io.read fh.bufsize).fst.length = 0 := by omega
      simp only [PHYSFS_tell, hr, if_pos rfl]
      push_cast [hbe]
      rw [read_pos, hrl]
      push_cast
      omega
    · exact ⟨by simp, by simp, fun hf => by simp [hr] at hf⟩

theorem flush_read_noop (fh : FileHandle) (hr : fh.forReading = true) :
    PHYSFS_flush fh = some fh := by
  simp [PHYSFS_flush, hr]

/-- C2: the buffered logical-position invariant.  PHYSFS_tell computes
io.tell() - buffill + bufpos for read handles and io.tell() + buffill
for write handles, and on a well-formed handle over a stream that never
cuts writes short this value is the correct logical position after
every successful doBufferedRead, doBufferedWrite, PHYSFS_seek and
PHYSFS_flush: reads and writes advance it by exactly the reported
count, a seek lands it on the requested position, and a flush leaves it
unchanged, with well-formedness preserved each time. -/
theorem buffered_tell_invariant (fh : FileHandle) (len : Nat) (bs : List Nat) (pos : Nat)
    (hwf : WF fh) (hcap : fh.io.cap = none) :
    C2Formula fh ∧ C2Read fh len ∧ C2Write fh bs ∧ C2Seek fh pos ∧ C2Flush fh := by
  obtain ⟨hbp, hbl, hwr⟩ := hwf
  unfold C2Formula C2Read C2Write C2Seek C2Flush
  refine ⟨⟨fun hr => by simp [PHYSFS_tell, hr], fun hw => by simp [PHYSFS_tell, hw]⟩,
    ?_, ?_, ?_, ?_⟩
  · intro hr
    obtain ⟨h1, h2⟩ := dbrGo_tell fh len 0 [] hr hbp hbl
    refine ⟨?_, h2⟩
    simpa [doBufferedRead] using h1
  · intro hw
    have hbp0 : fh.bufpos = 0 := hwr hw
    by_cases hfit : fh.buffill + bs.length < fh.bufsize
    · unfold doBufferedWrite
      rw [if_pos hfit]
      refine ⟨rfl, ?_, ?_⟩
      · simp only [PHYSFS_tell, hw]
        push_cast
        ring
      · refine ⟨by dsimp only; omega, ?_, fun _ => hbp0⟩
        dsimp only
        simp only [List.length_append, List.length_take]
        omega
    · unfold doBufferedWrite
      rw [if_neg hfit]
      obtain ⟨fhf, hf, htell, hwf2, hwff, hbsz, hcapf, hwcl⟩ :=
        flush_spec fh ⟨hbp, hbl, hwr⟩ hcap
      rw [hf]
      obtain ⟨hb0, hp0⟩ := hwcl hw
      have hw2 : fhf.forReading = false := by rw [hwff, hw]
      have hfst := write_none_fst fhf.io bs hcapf
      have hpos := write_none_pos fhf.io bs hcapf
      have htf2 : PHYSFS_tell fhf = (fhf.io.pos : Int) + fhf.buffill := by
        simp [PHYSFS_tell, hw2]
      have htr2 : PHYSFS_tell ({ fhf with io := (fhf.io.write bs).snd })
          = ((fhf.io.write bs).snd.pos : Int) + fhf.buffill := by
        simp [PHYSFS_tell, hw2]
      refine ⟨by exact_mod_cast congrArg (Int.ofNat) hfst, ?_, ?_⟩
      · rw [← htell, htr2, hpos, htf2, hb0]
        push_cast
        ring
      · exact ⟨by simp [hp0, hb0], by simp [hb0], fun _ => by simp [hp0]⟩
  · intro fh1 hseek
    unfold PHYSFS_seek at hseek
    obtain ⟨fhf, hf, htell, hwf2, hwff, hbsz, hcapf, hwcl⟩ :=
      flush_spec fh ⟨hbp, hbl, hwr⟩ hcap
    simp only [hf] at hseek
    by_cases hc : fhf.bufsize ≠ 0 ∧ fhf.forReading = true
    · rw [if_pos hc] at hseek
      by_cases hrange : (0 ≤ (pos : Int) - PHYSFS_tell fhf ∧
            (pos : Int) - PHYSFS_tell fhf ≤ ((fhf.buffill - fhf.bufpos : Nat) : Int)) ∨
          ((pos : Int) - PHYSFS_tell fhf < 0 ∧
            -((pos : Int) - PHYSFS_tell fhf) ≤ (fhf.bufpos : Int))
      · rw [if_pos hrange] at hseek
        obtain rfl := Option.some.inj hseek
        have hr2 : fhf.forReading = true := hc.2
        have htf : PHYSFS_tell fhf = ((fhf.io.pos : Int) - fhf.buffill) + fhf.bufpos := by
          simp [PHYSFS_tell, hr2]
        have hnn : 0 ≤ (fhf.bufpos : Int) + ((pos : Int) - PHYSFS_tell fhf) := by
          rcases hrange with ⟨h1, h2⟩ | ⟨h1, h2⟩ <;> omega
        obtain ⟨ha, hb2, _⟩ := hwf2
        have htr : PHYSFS_tell
              { fhf with bufpos := ((fhf.bufpos : Int) + ((pos : Int) - PHYSFS_tell fhf)).toNat }
            = ((fhf.io.pos : Int) - fhf.buffill)
              + (((fhf.bufpos : Int) + ((pos : Int) - PHYSFS_tell fhf)).toNat : Int) := by
          simp [PHYSFS_tell, hr2]
        constructor
        · rw [htr, Int.toNat_of_nonneg hnn]
          omega
        · refine ⟨?_, hb2, fun hx => ?_⟩
          · dsimp only
            rcases hrange with ⟨h1, h2⟩ | ⟨h1, h2⟩ <;> omega
          · rw [hr2] at hx
            cases hx
      · rw [if_neg hrange] at hseek
        obtain rfl := Option.some.inj hseek
        obtain ⟨_, hb2, _⟩ := hwf2
        constructor
        · cases hfb : fhf.forReading <;> simp [PHYSFS_tell, ByteStream.seek, hfb]
        · exact ⟨by simp, by simp, fun _ => rfl⟩
    · rw [if_neg hc] at hseek
      obtain rfl := Option.some.inj hseek
      obtain ⟨_, hb2, _⟩ := hwf2
      constructor
      · cases hfb : fhf.forReading <;> simp [PHYSFS_tell, ByteStream.seek, hfb]
      · exact ⟨by simp, by simp, fun _ => rfl⟩
  · intro fh1 hfl
    obtain ⟨fhf, hf, htell, hwf2, _, _, _, _⟩ := flush_spec fh ⟨hbp, hbl, hwr⟩ hcap
    rw [hf] at hfl
    obtain rfl := Option.some.inj hfl
    exact ⟨htell, hwf2⟩

/-- Concrete well-formed buffered read handle used as witness input. -/
def fhC2 : FileHandle :=
  { io := { data := [1, 2, 3, 4, 5], pos := 3, cap := none }, forReading := true,
    buffer := [1, 2, 3], bufsize := 3, buffill := 3, bufpos := 1 }

theorem buffered_tell_invariant_witness :
    WF fhC2 ∧ fhC2.io.cap = none ∧
      (C2Formula fhC2 ∧ C2Read fhC2 2 ∧ C2Write fhC2 [7] ∧ C2Seek fhC2 1 ∧ C2Flush fhC2) :=
  ⟨by decide, rfl, buffered_tell_invariant fhC2 2 [7] 1 (by decide) rfl⟩

/-- Concrete write handle with three pending bytes over a stream that
can only accept two more bytes, so its write comes up short. -/
def fhC3 : FileHandle :=
  { io := { data := [], pos := 0, cap := some 2 }, forReading := false,
    buffer := [10, 20, 30], bufsize := 4, buffill := 3, bufpos := 0 }

/-- C3 counterexample: fhC3 has 3 pending bytes, the underlying stream
writes only 2 of them (a short write), yet PHYSFS_flush reports success
and zeroes buffill and bufpos, silently dropping the third byte.  The
claim demands that any short write make flush fail with the buffer
state intact; the code only fails on a count of zero or less. -/
theorem flush_short_write_not_failed :
    fhC3.forReading = false ∧ fhC3.buffill - fhC3.bufpos = 3 ∧
    (fhC3.io.write ((fhC3.buffer.drop fhC3.bufpos).take (fhC3.buffill - fhC3.bufpos))).fst = 2 ∧
    PHYSFS_flush fhC3 = some
      { io := { data := [10, 20], pos := 2, cap := some 0 }, forReading := false,
        buffer := [10, 20, 30], bufsize := 4, buffill := 0, bufpos := 0 } := by
  decide

/-- C3 as amended: PHYSFS_flush is a successful no-op for read handles
and for empty buffers; otherwise it writes buffer[bufpos..buffill] to
the underlying stream and fails, leaving buffill, bufpos and the buffer
contents intact, exactly when the stream reports zero bytes written
(the C test rc <= 0); any positive count, even one short of the pending
byte count, is treated as success and zeroes buffill and bufpos. -/
theorem flush_characterization (fh : FileHandle) :
    ((fh.forReading = true ∨ fh.bufpos = fh.buffill) → PHYSFS_flush fh = some fh) ∧
    (fh.forReading = false → fh.bufpos ≠ fh.buffill →
      ((fh.io.write ((fh.buffer.drop fh.bufpos).take (fh.buffill - fh.bufpos))).fst = 0 →
          PHYSFS_flush fh = none) ∧
      ((fh.io.write ((fh.buffer.drop fh.bufpos).take (fh.buffill - fh.bufpos))).fst ≠ 0 →
          PHYSFS_flush fh = some { fh with
            io := (fh.io.write ((fh.buffer.drop fh.bufpos).take (fh.buffill - fh.bufpos))).snd,
            bufpos := 0, buffill := 0 })) := by
  constructor
  · intro h
    unfold PHYSFS_flush
    rw [if_pos h]
  · intro hw hne
    have hcond : ¬(fh.forReading = true ∨ fh.bufpos = fh.buffill) := by
      simp [hw, hne]
    constructor
    · intro hz
      unfold PHYSFS_flush
      rw [if_neg hcond]
      simp only [hz]
      rfl
    · intro hz
      unfold PHYSFS_flush
      rw [if_neg hcond]
      simp only [if_neg hz]

theorem flush_characterization_witness :
    fhC3.forReading = false ∧ fhC3.bufpos ≠ fhC3.buffill ∧
    ((fhC3.io.write ((fhC3.buffer.drop fhC3.bufpos).take (fhC3.buffill - fhC3.bufpos))).fst ≠ 0 ∧
      PHYSFS_flush fhC3 = some { fhC3 with
        io := (fhC3.io.write ((fhC3.buffer.drop fhC3.bufpos).take (fhC3.buffill - fhC3.bufpos))).snd,
        bufpos := 0, buffill := 0 }) :=
  ⟨rfl, by decide,
    by decide,
    ((flush_characterization fhC3).2 rfl (by decide)).2 (by decide)⟩

/-- The position range of claim C5: pos lies inside
[tell() - bufpos, tell() - bufpos + buffill]. -/
def seekInBufferRange (fh : FileHandle) (pos : Nat) : Prop :=
  PHYSFS_tell fh - (fh.bufpos : Int) ≤ (pos : Int) ∧
    (pos : Int) ≤ PHYSFS_tell fh - (fh.bufpos : Int) + (fh.buffill : Int)

/-- C5: on a buffered read handle, seeking to a position inside
[tell - bufpos, tell - bufpos + buffill] only adjusts bufpos, leaving
the underlying stream, the buffer contents, buffill and bufsize
untouched (the result record differs from the input in bufpos alone);
any position outside that range discards the buffer (buffill and bufpos
zeroed) and raw-seeks the underlying stream to pos. -/
theorem seek_within_buffer (fh : FileHandle) (pos : Nat)
    (hr : fh.forReading = true) (hb : fh.bufsize ≠ 0) (hbp : fh.bufpos ≤ fh.buffill) :
    (seekInBufferRange fh pos →
      PHYSFS_seek fh pos = some { fh with
        bufpos := ((fh.bufpos : Int) + ((pos : Int) - PHYSFS_tell fh)).toNat }) ∧
    (¬seekInBufferRange fh pos →
      PHYSFS_seek fh pos = some { fh with buffill := 0, bufpos := 0, io := fh.io.seek pos }) := by
  have hiff : ((0 ≤ (pos : Int) - PHYSFS_tell fh ∧
        (pos : Int) - PHYSFS_tell fh ≤ ((fh.buffill - fh.bufpos : Nat) : Int)) ∨
      ((pos : Int) - PHYSFS_tell fh < 0 ∧
        -((pos : Int) - PHYSFS_tell fh) ≤ (fh.bufpos : Int))) ↔ seekInBufferRange fh pos := by
    unfold seekInBufferRange
    omega
  constructor
  · intro hin
    unfold PHYSFS_seek
    simp only [flush_read_noop fh hr]
    rw [if_pos ⟨hb, hr⟩, if_pos (hiff.mpr hin)]
  · intro hout
    unfold PHYSFS_seek
    simp only [flush_read_noop fh hr]
    rw [if_pos ⟨hb, hr⟩, if_neg (fun hc => hout (hiff.mp hc))]

/-- Concrete buffered read handle for the seek witness: tell() is 3, so
positions 2 through 5 are inside the buffered range. -/
def fhC5 : FileHandle :=
  { io := { data := [0, 1, 2, 3, 4, 5, 6, 7], pos := 5, cap := none }, forReading := true,
    buffer := [3, 4, 5], bufsize := 3, buffill := 3, bufpos := 1 }

theorem seek_within_buffer_witness :
    fhC5.forReading = true ∧ fhC5.bufsize ≠ 0 ∧ fhC5.bufpos ≤ fhC5.buffill ∧
      ((seekInBufferRange fhC5 4 →
          PHYSFS_seek fhC5 4 = some { fhC5 with
            bufpos := ((fhC5.bufpos : Int) + (((4 : Nat) : Int) - PHYSFS_tell fhC5)).toNat }) ∧
        (¬seekInBufferRange fhC5 4 →
          PHYSFS_seek fhC5 4
            = some { fhC5 with buffill := 0, bufpos := 0, io := fhC5.io.seek 4 })) :=
  ⟨rfl, by decide, by decide, seek_within_buffer fhC5 4 rfl (by decide) (by decide)⟩

/-- C strcmp on NUL-terminated byte strings (entry names are byte
lists; strcmp compares unsigned char values, and the terminator makes a
proper prefix compare less than its extensions).  Only the sign of the
C result is ever used, so the model returns -1, 0 or 1. -/
def strcmpL : List Nat → List Nat → Int
  | [], [] => 0
  | [], _ :: _ => -1
  | _ :: _, [] => 1
  | a :: as, b :: bs => if a < b then -1 else if b < a then 1 else strcmpL as bs

theorem strcmpL_eq_zero (a b : List Nat) : strcmpL a b = 0 ↔ a = b := by
  induction a generalizing b with
  | nil => cases b <;> simp [strcmpL]
  | cons x xs ih =>
    cases b with
    | nil => simp [strcmpL]
    | cons y ys =>
      unfold strcmpL
      split_ifs with h1 h2
      · constructor
        · intro h
          exact absurd h (by decide)
        · intro h
          injection h with hx hy
          omega
      · constructor
        · intro h
          exact absurd h (by decide)
        · intro h
          injection h with hx hy
          omega
      · have hxy : x = y := by omega
        subst hxy
        rw [ih ys]
        constructor
        · intro h
          rw [h]
        · intro h
          injection h

theorem strcmpL_cases (a b : List Nat) :
    strcmpL a b = -1 ∨ strcmpL a b = 0 ∨ strcmpL a b = 1 := by
  induction a generalizing b with
  | nil => cases b <;> simp [strcmpL]
  | cons x xs ih =>
    cases b with
    | nil => simp [strcmpL]
    | cons y ys =>
      unfold strcmpL
      split_ifs with h1 h2
      · exact Or.inl rfl
      · exact Or.inr (Or.inr rfl)
      · exact ih ys

theorem strcmpL_swap (a b : List Nat) : strcmpL b a = -strcmpL a b := by
  induction a generalizing b with
  | nil => cases b <;> simp [strcmpL]
  | cons x xs ih =>
    cases b with
    | nil => simp [strcmpL]
    | cons y ys =>
      unfold strcmpL
      split_ifs with h1 h2 h3 h4 h5 h6 <;> first
        | rfl
        | omega
        | exact ih ys

theorem strcmpL_trans_neg (a b c : List Nat) :
    strcmpL a b = -1 → strcmpL b c = -1 → strcmpL a c = -1 := by
  induction a generalizing b c with
  | nil =>
    intro h1 h2
    cases b with
    | nil => exact h2
    | cons y ys =>
      cases c with
      | nil => exact absurd h2 (by simp [strcmpL])
      | cons z zs => simp [strcmpL]
  | cons x xs ih =>
    intro h1 h2
    cases b with
    | nil => exact absurd h1 (by simp [strcmpL])
    | cons y ys =>
      cases c with
      | nil => exact absurd h2 (by simp [strcmpL])
      | cons z zs =>
        unfold strcmpL at h1 h2 ⊢
        split_ifs at h1 h2 ⊢ with g1 g2 g3 g4 g5 g6 <;> first
          | rfl
          | omega
          | exact ih ys zs h1 h2
          | (exact absurd h1 (by decide))
          | (exact absurd h2 (by decide))

/-- locateInStringList loop (physfs.c): binary search over list[lo..lo+len)
with half_len = len >> 1 and middle = lo + half_len; finding str returns
the found marker (C returns 1), otherwise lo narrows to the insertion
position (C deposits it in *pos and returns 0). -/
def locateGo (str : List Nat) (list : List (List Nat)) (lo len : Nat) : Option Nat :=
  if len = 0 then some lo
  else
    let cmp := strcmpL (list.getD (lo + len / 2) []) str
    if cmp = 0 then none
    else if 0 < cmp then locateGo str list lo (len / 2)
    else locateGo str list (lo + len / 2 + 1) (len - (len / 2 + 1))
termination_by len
decreasing_by
  · omega
  · omega

theorem locateGo_zero (str : List Nat) (list : List (List Nat)) (lo : Nat) :
    locateGo str list lo 0 = some lo := by
  rw [locateGo]
  simp

theorem locateGo_found (str : List Nat) (list : List (List Nat)) (lo len : Nat)
    (h0 : ¬len = 0) (hc : strcmpL (list.getD (lo + len / 2) []) str = 0) :
    locateGo str list lo len = none := by
  rw [locateGo]
  simp only [hc]
  norm_num [h0]

theorem locateGo_gt (str : List Nat) (list : List (List Nat)) (lo len : Nat)
    (h0 : ¬len = 0) (hc : strcmpL (list.getD (lo + len / 2) []) str = 1) :
    locateGo str list lo len = locateGo str list lo (len / 2) := by
  rw [locateGo]
  simp only [hc]
  norm_num [h0]

theorem locateGo_lt (str : List Nat) (list : List (List Nat)) (lo len : Nat)
    (h0 : ¬len = 0) (hc : strcmpL (list.getD (lo + len / 2) []) str = -1) :
    locateGo str list lo len = locateGo str list (lo + len / 2 + 1) (len - (len / 2 + 1)) := by
  rw [locateGo]
  simp only [hc]
  norm_num [h0]

/-- Correctness of the binary search on a strcmp-sorted window: a found
result means str is present; an insertion position pos splits the list
into strictly-smaller entries below it and strictly-greater entries
from it on. -/
theorem locateGo_spec (str : List Nat) (list : List (List Nat))
    (hs : List.Pairwise (fun a b => strcmpL a b = -1) list) :
    ∀ len lo, lo + len ≤ list.length →
      (∀ i, i < lo → strcmpL (list.getD i []) str = -1) →
      (∀ i, lo + len ≤ i → i < list.length → strcmpL (list.getD i []) str = 1) →
      ((locateGo str list lo len = none → str ∈ list) ∧
        (∀ pos, locateGo str list lo len = some pos →
          pos ≤ list.length ∧
          (∀ i, i < pos → strcmpL (list.getD i []) str = -1) ∧
          (∀ i, pos ≤ i → i < list.length → strcmpL (list.getD i []) str = 1))) := by
  have hsort : ∀ i j, i < j → j < list.length →
      strcmpL (list.getD i []) (list.getD j []) = -1 := by
    intro i j hij hj
    have hi : i < list.length := lt_trans hij hj
    rw [List.getD_eq_getElem list [] hi, List.getD_eq_getElem list [] hj]
    exact List.pairwise_iff_getElem.mp hs i j hi hj hij
  intro len
  induction len using Nat.strong_induction_on with
  | _ len IH =>
    intro lo hle hlow hhigh
    by_cases h0 : len = 0
    · subst h0
      rw [locateGo_zero]
      constructor
      · intro h
        cases h
      · intro pos hp
        injection hp with hp
        subst hp
        exact ⟨by omega, hlow, fun i hi hil => hhigh i (by omega) hil⟩
    · have hmid : lo + len / 2 < list.length := by omega
      rcases strcmpL_cases (list.getD (lo + len / 2) []) str with hc | hc | hc
      · rw [locateGo_lt str list lo len h0 hc]
        have harg : len - (len / 2 + 1) < len := by omega
        apply IH _ harg
        · omega
        · intro i hi
          by_cases hlo : i < lo
          · exact hlow i hlo
          · by_cases heq : i = lo + len / 2
            · rw [heq]
              exact hc
            · exact strcmpL_trans_neg _ _ _ (hsort i (lo + len / 2) (by omega) hmid) hc
        · intro i hi hil
          exact hhigh i (by omega) hil
      · rw [locateGo_found str list lo len h0 hc]
        constructor
        · intro _
          have : list.getD (lo + len / 2) [] = str := (strcmpL_eq_zero _ _).mp hc
          rw [← this, List.getD_eq_getElem list [] hmid]
          exact List.getElem_mem hmid
        · intro pos hp
          cases hp
      · rw [locateGo_gt str list lo len h0 hc]
        have harg : len / 2 < len := by omega
        apply IH _ harg
        · omega
        · exact hlow
        · intro i hi hil
          by_cases heq : i = lo + len / 2
          · rw [heq]
            exact hc
          · by_cases hbig : lo + len ≤ i
            · exact hhigh i hbig hil
            · have h1 : strcmpL str (list.getD (lo + len / 2) []) = -1 := by
                rw [strcmpL_swap, hc]
                try rfl
              have h2 := hsort (lo + len / 2) i (by omega) hil
              have h3 := strcmpL_trans_neg _ _ _ h1 h2
              rw [strcmpL_swap, h3]
              try rfl

/-- locateInStringList (physfs.c): the C caller starts with *pos equal
to the list size, so the binary search covers the whole list; none
models the C found-it return of 1, some pos the insertion position
deposited in *pos. -/
def locateInStringList (str : List Nat) (list : List (List Nat)) : Option Nat :=
  locateGo str list 0 list.length

/-- enumFilesCallback (physfs.c): an entry already in the list is
skipped (the callback keeps going); otherwise the memmove opens the
returned slot and the entry is inserted there.  The out-of-memory paths
are not modelled (allocation is assumed to succeed). -/
def enumFilesInsert (list : List (List Nat)) (str : List Nat) : List (List Nat) :=
  match locateInStringList str list with
  | none => list
  | some pos => list.insertIdx pos str

/-- PHYSFS_enumerateFiles collection (physfs.c): the entries delivered
by the enumeration callback are folded into an initially-empty list. -/
def enumFilesFold (names : List (List Nat)) : List (List Nat) :=
  names.foldl enumFilesInsert []

theorem enumFilesInsert_spec (list : List (List Nat)) (str : List Nat)
    (hs : List.Pairwise (fun a b => strcmpL a b = -1) list) :
    List.Pairwise (fun a b => strcmpL a b = -1) (enumFilesInsert list str) ∧
      ∀ x, x ∈ enumFilesInsert list str ↔ x ∈ list ∨ x = str := by
  have hspec := locateGo_spec str list hs list.length 0 (by omega)
    (fun i hi => absurd hi (by omega)) (fun i h1 h2 => absurd h2 (by omega))
  unfold enumFilesInsert locateInStringList
  cases hloc : locateGo str list 0 list.length with
  | none =>
    have hmem : str ∈ list := hspec.1 hloc
    refine ⟨hs, fun x => ?_⟩
    constructor
    · exact Or.inl
    · intro h
      rcases h with h | h
      · exact h
      · rw [h]
        exact hmem
  | some pos =>
    obtain ⟨hple, hlow, hhigh⟩ := hspec.2 pos hloc
    constructor
    · have hsort2 : ∀ a b, a < b → b < list.length →
          strcmpL (list.getD a []) (list.getD b []) = -1 := by
        intro a b hab hb
        have ha : a < list.length := lt_trans hab hb
        rw [List.getD_eq_getElem list [] ha, List.getD_eq_getElem list [] hb]
        exact List.pairwise_iff_getElem.mp hs a b ha hb hab
      have hlen : (list.insertIdx pos str).length = list.length + 1 :=
        List.length_insertIdx pos list hple
      have hgetlt : ∀ k, k < pos → (list.insertIdx pos str).getD k [] = list.getD k [] := by
        intro k hk
        rw [List.getD_eq_getElem _ [] (by omega), List.getD_eq_getElem list [] (by omega)]
        exact List.getElem_insertIdx_of_lt list str pos k hk (by omega)
      have hgetself : (list.insertIdx pos str).getD pos [] = str := by
        rw [List.getD_eq_getElem _ [] (by omega)]
        exact List.getElem_insertIdx_self list str pos hple
      have hgetshift : ∀ k, pos < k → k < list.length + 1 →
          (list.insertIdx pos str).getD k [] = list.getD (k - 1) [] := by
        intro k hk1 hk2
        have base := List.getElem_insertIdx_add_succ list str pos (k - pos - 1) (by omega)
        have base2 : (list.insertIdx pos str).getD (pos + (k - pos - 1) + 1) []
            = list.getD (pos + (k - pos - 1)) [] := by
          rw [List.getD_eq_getElem _ [] (by omega), List.getD_eq_getElem list [] (by omega)]
          exact base
        have e1 : pos + (k - pos - 1) + 1 = k := by omega
        have e2 : pos + (k - pos - 1) = k - 1 := by omega
        rw [e1, e2] at base2
        exact base2
      rw [List.pairwise_iff_getElem]
      intro i j hi hj hij
      rw [hlen] at hi hj
      rw [← List.getD_eq_getElem (list.insertIdx pos str) [] (by omega),
        ← List.getD_eq_getElem (list.insertIdx pos str) [] (by omega)]
      by_cases hjp : j < pos
      · rw [hgetlt i (by omega), hgetlt j hjp]
        exact hsort2 i j hij (by omega)
      · by_cases hjq : j = pos
        · rw [hgetlt i (by omega), hjq, hgetself]
          exact hlow i (by omega)
        · rw [hgetshift j (by omega) (by omega)]
          by_cases hip : i < pos
          · rw [hgetlt i hip]
            exact hsort2 i (j - 1) (by omega) (by omega)
          · by_cases hiq : i = pos
            · rw [hiq, hgetself]
              have h1 := hhigh (j - 1) (by omega) (by omega)
              rw [strcmpL_swap, h1]
              try rfl
            · rw [hgetshift i (by omega) (by omega)]
              exact hsort2 (i - 1) (j - 1) (by omega) (by omega)
    · intro x
      rw [List.mem_insertIdx hple]
      constructor
      · intro h
        rcases h with h | h
        · exact Or.inr h
        · exact Or.inl h
      · intro h
        rcases h with h | h
        · exact Or.inr h
        · exact Or.inl h

theorem enumFilesFold_go (names : List (List Nat)) :
    ∀ acc, List.Pairwise (fun a b => strcmpL a b = -1) acc →
      List.Pairwise (fun a b => strcmpL a b = -1) (names.foldl enumFilesInsert acc) ∧
        ∀ x, x ∈ names.foldl enumFilesInsert acc ↔ x ∈ acc ∨ x ∈ names := by
  induction names with
  | nil =>
    intro acc hacc
    refine ⟨hacc, fun x => ?_⟩
    simp
  | cons n ns ih =>
    intro acc hacc
    obtain ⟨h1, h2⟩ := enumFilesInsert_spec acc n hacc
    obtain ⟨g1, g2⟩ := ih _ h1
    rw [List.foldl_cons]
    refine ⟨g1, fun x => ?_⟩
    rw [g2 x, h2 x]
    simp only [List.mem_cons]
    tauto

/-- Byte strings of the entry names in the claim's example. -/
def nameFoo : List Nat := [102, 111, 111]

def nameBar : List Nat := [98, 97, 114]

def nameBaz : List Nat := [98, 97, 122]

/-- C9: for every sequence of entry names delivered by enumeration, the
string list collected by PHYSFS_enumerateFiles through the
binary-search-insertion callback is strcmp-sorted (strictly ascending,
hence lexicographic and NUL-terminated in C, where the terminating NULL
pointer follows the last entry), duplicate-free, and contains exactly
the delivered names; in particular any delivery order of the entries
foo, bar, baz collects exactly the list bar, baz, foo. -/
theorem enumerateFiles_sorted_list (names : List (List Nat)) :
    List.Pairwise (fun a b => strcmpL a b = -1) (enumFilesFold names) ∧
      (enumFilesFold names).Nodup ∧
      (∀ x, x ∈ enumFilesFold names ↔ x ∈ names) ∧
      (names.Perm [nameFoo, nameBar, nameBaz] →
        enumFilesFold names = [nameBar, nameBaz, nameFoo]) := by
  unfold enumFilesFold
  obtain ⟨hsorted, hmem⟩ := enumFilesFold_go names [] (by simp)
  have hnodup : (names.foldl enumFilesInsert []).Nodup := by
    refine hsorted.imp ?_
    intro a b hab heq
    subst heq
    have h0 : strcmpL a a = 0 := (strcmpL_eq_zero a a).mpr rfl
    rw [h0] at hab
    exact absurd hab (by decide)
  have hmemS : ∀ x, x ∈ names.foldl enumFilesInsert [] ↔ x ∈ names := by
    intro x
    rw [hmem x]
    simp
  refine ⟨hsorted, hnodup, hmemS, ?_⟩
  intro hperm
  have htargetSorted :
      List.Pairwise (fun a b => strcmpL a b = -1) [nameBar, nameBaz, nameFoo] := by
    decide
  have htargetNodup : ([nameBar, nameBaz, nameFoo] : List (List Nat)).Nodup := by decide
  have hperm2 : (names.foldl enumFilesInsert []).Perm [nameBar, nameBaz, nameFoo] := by
    rw [List.perm_ext_iff_of_nodup hnodup htargetNodup]
    intro a
    rw [hmemS a, hperm.mem_iff]
    simp only [List.mem_cons, List.not_mem_nil, or_false]
    tauto
  haveI : IsAntisymm (List Nat) (fun a b => strcmpL a b = -1) := ⟨by
    intro a b h1 h2
    rw [strcmpL_swap, h1] at h2
    exact absurd h2 (by decide)⟩
  exact List.eq_of_perm_of_sorted hperm2 hsorted htargetSorted

theorem enumerateFiles_sorted_list_witness :
    ([nameFoo, nameBar, nameBaz] : List (List Nat)).Perm [nameFoo, nameBar, nameBaz] ∧
      enumFilesFold [nameFoo, nameBar, nameBaz] = [nameBar, nameBaz, nameFoo] :=
  ⟨by decide, (enumerateFiles_sorted_list [nameFoo, nameBar, nameBaz]).2.2.2 (by decide)⟩

/-- File types reported by the archiver stat entry point
(PHYSFS_FileType). -/
inductive FileType where
  | regular
  | directory
  | symlink
  | other
  deriving DecidableEq, Repr

/-- Mount entry as seen by verifyPath (physfs.c): only the virtual
mountpoint matters here.  Paths are represented by their '/'-separated
segment lists (sanitized paths contain no empty segments, so the
correspondence with the C strings is one-to-one); a stored mountpoint
"a/b/" is the segment list ["a", "b"]. -/
structure DirHandleV where
  mountPoint : Option (List String)

/-- Symlink/existence loop of verifyPath (physfs.c).  The C code scans
fname, truncating at each '/' so that the backend stats each prefix of
the path in turn; acc holds the prefix already scanned.  A prefix that
stats as a symlink fails SYMLINK_FORBIDDEN at once.  A stat failure
with NOT_FOUND clears retval, and the loop then stops: successfully if
this was the last element (it may be a file about to be created) or if
allowMissing is set, else as a failure passing the backend's error
through.  Any other stat failure is ignored and the scan continues.
The empty list is the fname-equals-mountpoint case, where C stats the
empty remainder string once (end is NULL on the first iteration). -/
def vpLoop (stat : List String → Except ErrC FileType) (am : Bool)
    (acc : List String) : List String → Bool × Option ErrC
  | [] =>
    match stat acc with
    | .ok ft => if ft = .symlink then (false, some .SYMLINK_FORBIDDEN) else (true, none)
    | .error e => (true, some e)
  | s :: rest =>
    match stat (acc ++ [s]) with
    | .ok ft =>
      if ft = .symlink then (false, some .SYMLINK_FORBIDDEN)
      else if rest.isEmpty then (true, none)
      else vpLoop stat am (acc ++ [s]) rest
    | .error e =>
      if e = .NOT_FOUND then
        if rest.isEmpty ∨ am then (true, some e)
        else (false, some e)
      else
        if rest.isEmpty then (true, some e)
        else vpLoop stat am (acc ++ [s]) rest

/-- verifyPath (physfs.c): an empty fname is accepted at once.  With a
non-default mountpoint, fname must equal or descend into it (the C
strncmp over mntpntlen-1 bytes plus the '/'-boundary check is exactly
segment-list prefixing for sanitized paths), failing NOT_FOUND
otherwise, and the fname is advanced past the mountpoint.  When
symlinks are allowed the security scan is skipped; otherwise the loop
above checks every prefix. -/
def verifyPath (h : DirHandleV) (stat : List String → Except ErrC FileType)
    (allowSymLinks am : Bool) (segs : List String) : Bool × Option ErrC :=
  if segs = [] then (true, none)
  else
    match h.mountPoint with
    | none =>
      if allowSymLinks then (true, none) else vpLoop stat am [] segs
    | some mp =>
      if mp.isPrefixOf segs then
        if allowSymLinks then (true, none) else vpLoop stat am [] (segs.drop mp.length)
      else (false, some .NOT_FOUND)

/-- Filesystem for the C7 example: "a" is a real directory and "a/b" is
a symbolic link (the final segment of the probed path). -/
def statC7 : List String → Except ErrC FileType := fun p =>
  if p = ["a"] then .ok .directory
  else if p = ["a", "b"] then .ok .symlink
  else .error .NOT_FOUND

/-- C7 counterexample: with symlinks disallowed, verifyPath on "a/b"
(no mountpoint, allowMissing off) where only the final segment "a/b"
stats as a symlink is rejected with SYMLINK_FORBIDDEN.  The claim
asserts such a path is not rejected for that reason, but the C loop
stats the full path too (the stat call happens before the end == NULL
check ends the loop). -/
theorem verifyPath_final_symlink_rejected :
    verifyPath ⟨none⟩ statC7 false false ["a", "b"]
      = (false, some ErrC.SYMLINK_FORBIDDEN) := by
  decide

/-- The loop fails SYMLINK_FORBIDDEN as soon as a scanned prefix stats
as a symlink, provided every earlier prefix stats as an existing
non-symlink. -/
theorem vpLoop_symlink (stat : List String → Except ErrC FileType) (am : Bool) :
    ∀ (segs : List String) (acc : List String) (k : Nat), k < segs.length →
      (∀ i, i < k → ∃ ft, stat (acc ++ segs.take (i + 1)) = .ok ft ∧ ft ≠ .symlink) →
      stat (acc ++ segs.take (k + 1)) = .ok .symlink →
      vpLoop stat am acc segs = (false, some ErrC.SYMLINK_FORBIDDEN) := by
  intro segs
  induction segs with
  | nil =>
    intro acc k hk
    exact absurd hk (by simp)
  | cons s rest ih =>
    intro acc k hk hpre hsym
    cases k with
    | zero =>
      simp only [List.take_succ_cons, List.take_zero] at hsym
      simp [vpLoop, hsym]
    | succ k2 =>
      obtain ⟨ft, hft, hftne⟩ := hpre 0 (by omega)
      simp only [List.take_succ_cons, List.take_zero] at hft
      cases rest with
      | nil =>
        simp only [List.length_cons, List.length_nil] at hk
        omega
      | cons r rs =>
        simp only [vpLoop, hft]
        rw [if_neg hftne]
        simp only [List.isEmpty_cons, Bool.false_eq_true, if_false]
        apply ih (acc ++ [s]) k2
        · simp only [List.length_cons] at hk ⊢
          omega
        · intro i hi
          obtain ⟨ft2, hft2, hne2⟩ := hpre (i + 1) (by omega)
          refine ⟨ft2, ?_, hne2⟩
          rw [← hft2]
          congr 1
          simp [List.take_succ_cons]
        · rw [← hsym]
          congr 1
          simp [List.take_succ_cons]

/-- C7 as amended: when symbolic links are disallowed, verifyPath stats
each segment of the mountpoint-relative path in turn and fails with
SYMLINK_FORBIDDEN as soon as any segment, including the final one,
stats as a symbolic link (assuming every earlier segment stats as an
existing non-symlink). -/
theorem verifyPath_symlink_forbidden (stat : List String → Except ErrC FileType)
    (am : Bool) (segs : List String) (k : Nat) (hk : k < segs.length)
    (hpre : ∀ i, i < k → ∃ ft, stat (segs.take (i + 1)) = .ok ft ∧ ft ≠ .symlink)
    (hsym : stat (segs.take (k + 1)) = .ok .symlink) :
    verifyPath ⟨none⟩ stat false am segs = (false, some ErrC.SYMLINK_FORBIDDEN) := by
  have hne : segs ≠ [] := by
    intro h
    rw [h] at hk
    exact absurd hk (by simp)
  unfold verifyPath
  rw [if_neg hne]
  simp only [Bool.false_eq_true, if_false]
  apply vpLoop_symlink stat am segs [] k hk
  · intro i hi
    simpa using hpre i hi
  · simpa using hsym

theorem verifyPath_symlink_forbidden_witness :
    1 < (["a", "b"] : List String).length ∧
      (∀ i, i < 1 → ∃ ft, statC7 ((["a", "b"] : List String).take (i + 1)) = .ok ft ∧
        ft ≠ FileType.symlink) ∧
      statC7 ((["a", "b"] : List String).take 2) = .ok .symlink ∧
      verifyPath ⟨none⟩ statC7 false true ["a", "b"]
        = (false, some ErrC.SYMLINK_FORBIDDEN) :=
  ⟨by decide,
    fun i hi => by
      have hi0 : i = 0 := by omega
      subst hi0
      exact ⟨FileType.directory, rfl, by decide⟩,
    rfl,
    verifyPath_symlink_forbidden statC7 true ["a", "b"] 1 (by decide)
      (fun i hi => by
        have hi0 : i = 0 := by omega
        subst hi0
        exact ⟨FileType.directory, rfl, by decide⟩)
      rfl⟩

/-- Modelled from the spec: the platform layer consulted while opening
an archive (physfs_platform_posix.c is not part of src/).  stat is
__PHYSFS_platformStat (following symlinks, as openDirectory requests);
openR is __PHYSFS_createNativeIo opening the file for reading, which
fails when the platform open fails. -/
structure Fs where
  stat : String → Except ErrC FileType
  openR : String → Except ErrC Unit

/-- DIR_openArchive ends its copied name with the platform directory
separator ('/' on this platform) unless it is already there (the C test
on the last character of the name). -/
def addDirSep (name : String) : String :=
  if name.data.getLast? = some '/' then name else name ++ "/"

/-- DIR_openArchive (physfs_archiver_dir.c): stat the name (pass the
failure through without claiming); refuse with UNSUPPORTED unless it is
a directory (still unclaimed); otherwise claim it and return the copied
name with a trailing separator as the archive instance.  Allocation
failures are not modelled. -/
def DIR_openArchive (fs : Fs) (name : String) : Option String × Bool × Option ErrC :=
  match fs.stat name with
  | .error e => (none, false, some e)
  | .ok ft =>
    if ft ≠ .directory then (none, false, some .UNSUPPORTED)
    else (some (addDirSep name), true, none)

/-- Archiver capability vector, reduced to the one entry point
openDirectory consults when mounting by name (the opening result, the
claimed flag, and the error left for the caller). -/
structure Archiver where
  openArchive : Fs → String → Option String × Bool × Option ErrC

def __PHYSFS_Archiver_DIR : Archiver :=
  ⟨DIR_openArchive⟩

/-- The format-specific archiver registry.  This source has no archiver
registry at all: physfs.c declares no archivers array and openDirectory
contains no probe loop (its variables for one are unused), so the list
of format-specific archivers is empty. -/
def archivers : List Archiver := []

/-- tryOpenDir (physfs.c): rewind the Io if one is given (none exists
when mounting by name with the DIR archiver), call the archiver's
openArchive, and wrap a non-null result in a DirHandle (allocation
failures are not modelled). -/
def tryOpenDir (fs : Fs) (funcs : Archiver) (d : String) :
    Option String × Bool × Option ErrC :=
  funcs.openArchive fs d

/-- Continuation of openDirectory (physfs.c) after the DIR attempt:
wrap the path in native I/O (destroyed again before returning); no
format-specific archiver exists to probe (archivers is empty), so
nothing claims the file and the final BAIL reports claimed ? errcode :
UNSUPPORTED with claimed still 0, that is UNSUPPORTED. -/
def openDirAfterDIR (fs : Fs) (d : String) : Except ErrC String :=
  match fs.openR d with
  | .error e => .error e
  | .ok _ => .error .UNSUPPORTED

/-- openDirectory (physfs.c), mounting by name (io NULL): stat the
path, give DIR the first shot when it is a directory (returning its
result, or its error, when it claims), and otherwise fall through to
the native-Io wrap and the empty probe sequence. -/
def openDirectory (fs : Fs) (d : String) : Except ErrC String :=
  match fs.stat d with
  | .error e => .error e
  | .ok ft =>
    if ft = .directory then
      match tryOpenDir fs __PHYSFS_Archiver_DIR d with
      | (some opq, _, _) => .ok opq
      | (none, true, e) => .error (e.getD .OTHER_ERROR)
      | (none, false, _) => openDirAfterDIR fs d
    else openDirAfterDIR fs d

/-- C4: when mounting by name, a path that stats as a directory is
tried with the DIR archiver first, which claims it and yields its
archive (the name plus trailing separator); otherwise the path is
wrapped in native I/O and the format-specific archivers are probed in
registration order — this source registers none (archivers = []) — so
nothing claims the file and the mount fails with UNSUPPORTED (stat and
native-open failures pass through as the claim's error cases). -/
theorem openDirectory_probe (fs : Fs) (d : String) :
    archivers = ([] : List Archiver) ∧
    (fs.stat d = .ok .directory → openDirectory fs d = .ok (addDirSep d)) ∧
    (∀ ft, fs.stat d = .ok ft → ft ≠ .directory → fs.openR d = .ok () →
      openDirectory fs d = .error .UNSUPPORTED) ∧
    (∀ e, fs.stat d = .error e → openDirectory fs d = .error e) ∧
    (∀ ft e, fs.stat d = .ok ft → ft ≠ .directory → fs.openR d = .error e →
      openDirectory fs d = .error e) := by
  refine ⟨rfl, ?_, ?_, ?_, ?_⟩
  · intro hd
    simp [openDirectory, tryOpenDir, __PHYSFS_Archiver_DIR, DIR_openArchive, hd]
  · intro ft hft hnd hopen
    simp [openDirectory, openDirAfterDIR, hft, hnd, hopen]
  · intro e he
    simp [openDirectory, he]
  · intro ft e hft hnd hopen
    simp [openDirectory, openDirAfterDIR, hft, hnd, hopen]

/-- Concrete platform for the mount witnesses: "data" is a directory,
"notes.txt" a plain file that can be opened. -/
def fsC4 : Fs :=
  ⟨fun s =>
      if s = "data" then .ok .directory
      else if s = "notes.txt" then .ok .regular
      else .error .NOT_FOUND,
    fun s => if s = "notes.txt" then .ok () else .error .NOT_FOUND⟩

theorem openDirectory_probe_witness :
    fsC4.stat "data" = .ok .directory ∧
      openDirectory fsC4 "data" = .ok (addDirSep "data") ∧
      (FileType.regular ≠ FileType.directory ∧ fsC4.openR "notes.txt" = .ok () ∧
        openDirectory fsC4 "notes.txt" = .error .UNSUPPORTED) :=
  ⟨rfl, (openDirectory_probe fsC4 "data").2.1 rfl,
    by decide, rfl,
    (openDirectory_probe fsC4 "notes.txt").2.2.1 FileType.regular rfl (by decide) rfl⟩

/-- A mounted DirHandle as seen by PHYSFS_unmount: the archive's source
path (dirName) and an identity standing for the C pointer, which is
what each open FileHandle's dirHandle field references. -/
structure DirHandleU where
  id : Nat
  dirName : String
  deriving DecidableEq, Repr

/-- The per-instance state PHYSFS_unmount works on: the ordered search
path, the open read list (each open handle's dirHandle reference), and
the archives closed so far (closeArchive calls, recorded to make the
backend-closing side effect observable). -/
structure VfsSt where
  searchPath : List DirHandleU
  openReadList : List Nat
  closed : List Nat
  deriving DecidableEq, Repr

/-- freeDirHandle (physfs.c): succeeds only when no handle on the given
open list references the DirHandle; otherwise the caller fails with
FILES_STILL_OPEN. -/
def freeDirHandleOk (dh : DirHandleU) (openList : List Nat) : Bool :=
  !(openList.contains dh.id)

/-- Search loop of PHYSFS_unmount (physfs.c): find the first handle
whose dirName equals oldDir byte-for-byte; refuse FILES_STILL_OPEN when
freeDirHandle does; otherwise return the search path with the handle
spliced out together with the id of the archive that was closed.  An
exhausted list is NOT_MOUNTED. -/
def unmountGo (openList : List Nat) (oldDir : String) :
    List DirHandleU → Except ErrC (List DirHandleU × Nat)
  | [] => .error .NOT_MOUNTED
  | dh :: rest =>
    if dh.dirName = oldDir then
      if freeDirHandleOk dh openList then .ok (rest, dh.id)
      else .error .FILES_STILL_OPEN
    else
      match unmountGo openList oldDir rest with
      | .ok (sp, cid) => .ok (dh :: sp, cid)
      | .error e => .error e

/-- PHYSFS_unmount (physfs.c): on failure the state is untouched; on
success the matching DirHandle is spliced out of the search path and
its backend archive closed. -/
def PHYSFS_unmount (st : VfsSt) (oldDir : String) : Except ErrC Unit × VfsSt :=
  match unmountGo st.openReadList oldDir st.searchPath with
  | .error e => (.error e, st)
  | .ok (sp, cid) => (.ok (), { st with searchPath := sp, closed := st.closed ++ [cid] })

theorem unmountGo_spec (openList : List Nat) (d : String) (dh : DirHandleU)
    (hdh : dh.dirName = d) :
    ∀ (pre post : List DirHandleU), (∀ x ∈ pre, x.dirName ≠ d) →
      ((openList.contains dh.id = true →
        unmountGo openList d (pre ++ dh :: post) = .error .FILES_STILL_OPEN) ∧
      (openList.contains dh.id = false →
        unmountGo openList d (pre ++ dh :: post) = .ok (pre ++ post, dh.id))) := by
  intro pre
  induction pre with
  | nil =>
    intro post hpre
    constructor
    · intro hopen
      have hfo : freeDirHandleOk dh openList = false := by
        rw [freeDirHandleOk, hopen]
        rfl
      simp only [List.nil_append, unmountGo, if_pos hdh, hfo, Bool.false_eq_true, if_false]
    · intro hopen
      have hfo : freeDirHandleOk dh openList = true := by
        rw [freeDirHandleOk, hopen]
        rfl
      simp only [List.nil_append, unmountGo, if_pos hdh, hfo, if_true]
  | cons p ps ih =>
    intro post hpre
    have hp : p.dirName ≠ d := hpre p (by simp)
    have hps : ∀ x ∈ ps, x.dirName ≠ d := fun x hx => hpre x (by simp [hx])
    obtain ⟨ih1, ih2⟩ := ih post hps
    constructor
    · intro hopen
      simp only [List.cons_append, unmountGo, List.append_eq]
      rw [if_neg hp, ih1 hopen]
    · intro hopen
      simp only [List.cons_append, unmountGo, List.append_eq]
      rw [if_neg hp, ih2 hopen]

/-- C6: unmount(d), with d equal byte-for-byte to a mounted handle's
dirName (and no earlier handle matching d), fails with
FILES_STILL_OPEN and leaves the whole state unchanged whenever some
handle on the open read list references that DirHandle; once no open
handle references it, the same call succeeds, splicing the DirHandle
out of the search path and closing its backend archive. -/
theorem unmount_refuses_when_open (st : VfsSt) (d : String)
    (pre post : List DirHandleU) (dh : DirHandleU)
    (hsp : st.searchPath = pre ++ dh :: post)
    (hpre : ∀ x ∈ pre, x.dirName ≠ d)
    (hdh : dh.dirName = d) :
    (st.openReadList.contains dh.id = true →
      PHYSFS_unmount st d = (.error .FILES_STILL_OPEN, st)) ∧
    (st.openReadList.contains dh.id = false →
      PHYSFS_unmount st d
        = (.ok (), { st with searchPath := pre ++ post, closed := st.closed ++ [dh.id] })) := by
  obtain ⟨h1, h2⟩ := unmountGo_spec st.openReadList d dh hdh pre post hpre
  constructor
  · intro hopen
    unfold PHYSFS_unmount
    rw [hsp, h1 hopen]
  · intro hopen
    unfold PHYSFS_unmount
    rw [hsp, h2 hopen]

/-- Concrete state for the unmount witness: two mounts, and one open
read handle referencing the second. -/
def stC6 : VfsSt :=
  { searchPath := [⟨1, "base.zip"⟩, ⟨2, "mods"⟩], openReadList := [2], closed := [] }

theorem unmount_refuses_when_open_witness :
    stC6.searchPath = [⟨1, "base.zip"⟩] ++ (⟨2, "mods"⟩ : DirHandleU) :: [] ∧
      (∀ x ∈ ([⟨1, "base.zip"⟩] : List DirHandleU), x.dirName ≠ "mods") ∧
      (DirHandleU.mk 2 "mods").dirName = "mods" ∧
      (stC6.openReadList.contains 2 = true →
        PHYSFS_unmount stC6 "mods" = (.error .FILES_STILL_OPEN, stC6)) ∧
      (stC6.openReadList.contains 2 = false →
        PHYSFS_unmount stC6 "mods"
          = (.ok (),
              { stC6 with searchPath := [⟨1, "base.zip"⟩] ++ [],
                          closed := stC6.closed ++ [2] })) :=
  ⟨rfl,
    fun x hx => by
      simp only [List.mem_singleton] at hx
      subst hx
      decide,
    rfl,
    (unmount_refuses_when_open stC6 "mods" [⟨1, "base.zip"⟩] [] ⟨2, "mods"⟩ rfl
      (fun x hx => by
        simp only [List.mem_singleton] at hx
        subst hx
        decide) rfl).1,
    (unmount_refuses_when_open stC6 "mods" [⟨1, "base.zip"⟩] [] ⟨2, "mods"⟩ rfl
      (fun x hx => by
        simp only [List.mem_singleton] at hx
        subst hx
        decide) rfl).2⟩

/-- A mount entry as created by doMount: the caller's source path
(dirName, compared byte-for-byte for duplicates and unmount), the
stored virtual mountpoint (sanitized, with a trailing '/', or absent
for the root), and the archive instance. -/
structure DirHandleM where
  dirName : String
  mountPoint : Option String
  opq : String
  deriving DecidableEq, Repr

/-- createDirHandle (physfs.c): sanitize the caller's mountpoint
(failing BAD_FILENAME as sanitize does), open the archive through
openDirectory (errors pass through), copy the dirName, and store the
sanitized mountpoint with a trailing '/' — but only when non-empty, so
the default "/" mountpoint is stored as absent. -/
def createDirHandle (fs : Fs) (newDir : String) (mountPoint : Option (List Char)) :
    Except ErrC DirHandleM :=
  match mountPoint with
  | some mp =>
    match sanitize mp with
    | none => .error .BAD_FILENAME
    | some smp =>
      match openDirectory fs newDir with
      | .error e => .error e
      | .ok opq =>
        .ok { dirName := newDir,
              mountPoint := if smp = [] then none else some (String.mk smp ++ "/"),
              opq := opq }
  | none =>
    match openDirectory fs newDir with
    | .error e => .error e
    | .ok opq => .ok { dirName := newDir, mountPoint := none, opq := opq }

/-- doMount (physfs.c), mounting by name: a NULL mountpoint defaults to
"/"; a handle with an identical dirName already on the search path is
an idempotent success before anything is created; otherwise the new
DirHandle is created and linked at the tail (prev->next after the scan)
when appendToPath is set, else at the head. -/
def doMount (fs : Fs) (st : List DirHandleM) (fname : String)
    (mountPoint : Option (List Char)) (appendToPath : Bool) : Bool × List DirHandleM :=
  let mp := mountPoint.getD ['/']
  if st.any (fun i => i.dirName == fname) then (true, st)
  else
    match createDirHandle fs fname (some mp) with
    | .error _ => (false, st)
    | .ok dh => (true, if appendToPath then st ++ [dh] else dh :: st)

/-- C8: mounting an fname already present as some handle's dirName
returns success and leaves the search path unchanged, whatever the
mountPoint and appendToPath arguments; a successful non-duplicate mount
places the new DirHandle at the tail when appendToPath holds and at the
head otherwise. -/
theorem mount_duplicate_and_placement (fs : Fs) (st : List DirHandleM) (fname : String)
    (mountPoint : Option (List Char)) (app : Bool) :
    ((∃ i ∈ st, i.dirName = fname) → doMount fs st fname mountPoint app = (true, st)) ∧
    ((¬∃ i ∈ st, i.dirName = fname) →
      ∀ dh, createDirHandle fs fname (some (mountPoint.getD ['/'])) = .ok dh →
        doMount fs st fname mountPoint app
          = (true, if app then st ++ [dh] else dh :: st)) := by
  constructor
  · intro hdup
    have hany : st.any (fun i => i.dirName == fname) = true := by
      rw [List.any_eq_true]
      obtain ⟨i, hi, he⟩ := hdup
      exact ⟨i, hi, by simp [he]⟩
    simp only [doMount, hany, if_true]
  · intro hnew dh hcreate
    have hany : st.any (fun i => i.dirName == fname) = false := by
      rw [List.any_eq_false]
      intro x hx hbe
      exact hnew ⟨x, hx, by simpa using hbe⟩
    simp only [doMount, hany, Bool.false_eq_true, if_false, hcreate]

/-- The DirHandle produced by mounting the directory "data" at the root
mountpoint through the DIR archiver. -/
def dhData : DirHandleM := ⟨"data", none, "data/"⟩

theorem mount_duplicate_and_placement_witness :
    ((∃ i ∈ ([dhData] : List DirHandleM), i.dirName = "data") ∧
      doMount fsC4 [dhData] "data" (some ['m', 'p']) true = (true, [dhData])) ∧
    ((¬∃ i ∈ ([] : List DirHandleM), i.dirName = "data") ∧
      createDirHandle fsC4 "data" (some ((none : Option (List Char)).getD ['/']))
        = .ok dhData ∧
      doMount fsC4 [] "data" none true = (true, [] ++ [dhData])) :=
  ⟨⟨⟨dhData, by simp, rfl⟩,
      (mount_duplicate_and_placement fsC4 [dhData] "data" (some ['m', 'p']) true).1
        ⟨dhData, by simp, rfl⟩⟩,
    ⟨by simp, rfl,
      (mount_duplicate_and_placement fsC4 [] "data" none true).2 (by simp) dhData rfl⟩⟩

/-- PHYSFS_EnumerateCallbackResult. -/
inductive EnumRes where
  | OK
  | STOP
  | ERROR
  deriving DecidableEq, Repr

/-- A mounted archive as consulted by PHYSFS_enumerate and
PHYSFS_openRead: its mountpoint (segment form, as in DirHandleV), the
backend stat, the entry names its enumerate reports for a directory,
the supportsSymlinks bit of its archiver descriptor, and its openRead
entry point (success stands for a non-null Io). -/
structure MArchive where
  mountPoint : Option (List String)
  stat : List String → Except ErrC FileType
  entries : List String → List String
  supportsSymlinks : Bool
  openRead : List String → Except ErrC Unit

/-- partOfMountPoint (physfs.c): true exactly when fname names a strict
prefix directory of the mountpoint (the empty fname included); the C
length comparisons, strncmp and '/'-boundary test amount to strict
segment-list prefixing for sanitized paths. -/
def partOfMountPoint (h : MArchive) (segs : List String) : Bool :=
  match h.mountPoint with
  | none => false
  | some m => segs.isPrefixOf m && !(segs == m)

/-- The path a backend receives: fname advanced past the mountpoint
(verifyPath's *_fname update). -/
def arcRelative (mp : Option (List String)) (segs : List String) : List String :=
  match mp with
  | none => segs
  | some m => segs.drop m.length

/-- Modelled from the spec: the platform directory enumeration behind
DIR_enumerate calls the callback once per entry and stops early when it
returns anything but OK, handing that result back. -/
def foldCb {σ : Type} (cb : σ → String → EnumRes × σ) (s : σ) :
    List String → EnumRes × σ
  | [] => (.OK, s)
  | n :: rest =>
    match cb s n with
    | (.OK, s1) => foldCb cb s1 rest
    | (r, s1) => (r, s1)

/-- enumCallbackFilterSymLinks (physfs.c): with symlinks disallowed and
a backend that supports them, each entry is stat'd under the enumerated
directory; a stat failure ends the enumeration with ERROR, a symlink is
silently dropped, anything else reaches the application callback. -/
def foldCbFiltered {σ : Type} (stat : List String → Except ErrC FileType)
    (dir : List String) (cb : σ → String → EnumRes × σ) (s : σ) :
    List String → EnumRes × σ
  | [] => (.OK, s)
  | n :: rest =>
    match stat (dir ++ [n]) with
    | .error _ => (.ERROR, s)
    | .ok ft =>
      if ft = .symlink then foldCbFiltered stat dir cb s rest
      else
        match cb s n with
        | (.OK, s1) => foldCbFiltered stat dir cb s1 rest
        | (r, s1) => (r, s1)

/-- Search-path loop of PHYSFS_enumerate (physfs.c), running while the
result stays OK: a mount whose mountpoint lies below fname synthesizes
the next mountpoint segment for the callback (enumerateFromMountPoint);
otherwise verifyPath gates the archive (skipping it on failure), the
path must stat as a directory in this archive (skipped otherwise, also
when stat fails), and the backend enumerates through the symlink filter
when symlinks are disallowed and the archiver supports them. -/
def enumLoop {σ : Type} (allowSym : Bool) (fname : List String)
    (cb : σ → String → EnumRes × σ) : List MArchive → σ → EnumRes × σ
  | [], s => (.OK, s)
  | dh :: rest, s =>
    let step : EnumRes × σ :=
      if partOfMountPoint dh fname then
        match dh.mountPoint with
        | some m => cb s (m.getD fname.length "")
        | none => (.OK, s)
      else
        match verifyPath ⟨dh.mountPoint⟩ dh.stat allowSym false fname with
        | (false, _) => (.OK, s)
        | (true, _) =>
          let arc := arcRelative dh.mountPoint fname
          match dh.stat arc with
          | .error _ => (.OK, s)
          | .ok ft =>
            if ft ≠ .directory then (.OK, s)
            else if !allowSym && dh.supportsSymlinks then
              foldCbFiltered dh.stat arc cb s (dh.entries arc)
            else foldCb cb s (dh.entries arc)
    match step with
    | (.OK, s1) => enumLoop allowSym fname cb rest s1
    | (r, s1) => (r, s1)

/-- Segment list of a sanitized path (empty path has no segments). -/
def segsOf (s : List Char) : List String :=
  if s = [] then [] else (String.mk s).splitOn "/"

/-- PHYSFS_enumerate (physfs.c): a path that fails sanitization sets
retval to ENUM_STOP without touching the search path or the callback,
and the function returns 0 only for ENUM_ERROR — so the sanitization
failure reports success with the callback state untouched. -/
def PHYSFS_enumerate {σ : Type} (sp : List MArchive) (allowSym : Bool)
    (fn : List Char) (cb : σ → String → EnumRes × σ) (s0 : σ) : Bool × σ :=
  match sanitize fn with
  | none => (true, s0)
  | some fname =>
    match enumLoop allowSym (segsOf fname) cb sp s0 with
    | (r, s1) => (r ≠ .ERROR, s1)

/-- Search-path loop of PHYSFS_openRead (physfs.c): the first archive
that passes verifyPath and returns a non-null Io wins; err carries the
error left by the latest failed attempt, reported when the list runs
out. -/
def openReadLoop (allowSym : Bool) (fname : List String) (err : ErrC) :
    List MArchive → Except ErrC Unit
  | [] => .error err
  | dh :: rest =>
    match verifyPath ⟨dh.mountPoint⟩ dh.stat allowSym false fname with
    | (true, _) =>
      match dh.openRead (arcRelative dh.mountPoint fname) with
      | .ok _ => .ok ()
      | .error e2 => openReadLoop allowSym fname e2 rest
    | (false, e) => openReadLoop allowSym fname (e.getD err) rest

/-- PHYSFS_openRead (physfs.c): sanitize (returning NULL with the
BAD_FILENAME sanitize left behind on failure), refuse NOT_FOUND on an
empty search path, and otherwise scan the search path. -/
def PHYSFS_openRead (sp : List MArchive) (allowSym : Bool) (fn : List Char) :
    Except ErrC Unit :=
  match sanitize fn with
  | none => .error .BAD_FILENAME
  | some fname =>
    if sp.isEmpty then .error .NOT_FOUND
    else openReadLoop allowSym (segsOf fname) .NOT_FOUND sp

/-- C10: for every input path that fails sanitization, PHYSFS_enumerate
returns 1 (success) with the callback state untouched — for every
search path, symlink policy, callback and starting state, so no
callback runs and no mounted archive is consulted — while
PHYSFS_openRead on the same string returns NULL with BAD_FILENAME. -/
theorem enumerate_vs_openRead_bad_path {σ : Type} (fn : List Char)
    (hbad : sanitize fn = none) :
    (∀ (sp : List MArchive) (allowSym : Bool) (cb : σ → String → EnumRes × σ) (s0 : σ),
      PHYSFS_enumerate sp allowSym fn cb s0 = (true, s0)) ∧
    (∀ (sp : List MArchive) (allowSym : Bool),
      PHYSFS_openRead sp allowSym fn = .error .BAD_FILENAME) := by
  constructor
  · intro sp allowSym cb s0
    unfold PHYSFS_enumerate
    rw [hbad]
  · intro sp allowSym
    unfold PHYSFS_openRead
    rw [hbad]

/-- An archive that would happily deliver entries and open files, to
show the bad path never reaches it. -/
def maC10 : MArchive :=
  ⟨none, fun _ => .ok .directory, fun _ => ["e1"], true, fun _ => .ok ()⟩

theorem enumerate_vs_openRead_bad_path_witness :
    sanitize ['a', ':', 'b'] = none ∧
      PHYSFS_enumerate [maC10] true ['a', ':', 'b']
        (fun (n : Nat) (_ : String) => (EnumRes.OK, n + 1)) 0 = (true, 0) ∧
      PHYSFS_openRead [maC10] true ['a', ':', 'b'] = .error .BAD_FILENAME :=
  ⟨by decide,
    (@enumerate_vs_openRead_bad_path Nat ['a', ':', 'b'] (by decide)).1 [maC10] true
      (fun (n : Nat) (_ : String) => (EnumRes.OK, n + 1)) 0,
    (@enumerate_vs_openRead_bad_path Nat ['a', ':', 'b'] (by decide)).2 [maC10] true⟩
